import Mathlib

/-!
Verification of the golang/playground sandbox and replay-codec code.

Byte streams are modelled as `List Nat` (each element a byte value).
Go errors that the code can return are modelled by explicit sum types or
Booleans; writes to `bytes.Buffer` destinations never fail, matching Go.
-/

namespace Playground

/-! ## Byte-sequence search (model of `bytes.Index` / `bytes.HasPrefix`) -/

/-- Model of Go `bytes.Index(hay, needle)`: index of the first occurrence of
`needle` as a contiguous block of `hay`, or `none` (Go returns `-1`). -/
def seqIdx (needle : List Nat) : List Nat → Option Nat
  | [] => if needle = [] then some 0 else none
  | x :: t => if needle.isPrefixOf (x :: t) then some 0 else (seqIdx needle t).map (· + 1)

/-- `occursAt needle hay k`: `needle` occurs in `hay` starting at offset `k`. -/
def occursAt (needle hay : List Nat) (k : Nat) : Prop :=
  (hay.drop k).take needle.length = needle

instance (needle hay : List Nat) (k : Nat) : Decidable (occursAt needle hay k) := by
  unfold occursAt; infer_instance

theorem isPrefixOf_iff_take (l₁ l₂ : List Nat) :
    l₁.isPrefixOf l₂ = true ↔ l₂.take l₁.length = l₁ := by
  rw [List.isPrefixOf_iff_prefix, List.prefix_iff_eq_take]
  exact ⟨fun h => h.symm, fun h => h.symm⟩

theorem occursAt_length_le {needle hay : List Nat} {k : Nat} (h : occursAt needle hay k)
    (hne : needle ≠ []) : k + needle.length ≤ hay.length := by
  unfold occursAt at h
  have hlen := congrArg List.length h
  rw [List.length_take, List.length_drop] at hlen
  have : needle.length ≠ 0 := fun h0 => hne (List.eq_nil_of_length_eq_zero h0)
  omega

theorem occursAt_nil_iff (needle : List Nat) (k : Nat) :
    occursAt needle [] k ↔ needle = [] := by
  unfold occursAt
  simp [eq_comm]

/-- Characterization of `seqIdx`: it returns the first offset at which the
needle occurs. -/
theorem seqIdx_eq_some_iff (needle hay : List Nat) (i : Nat) :
    seqIdx needle hay = some i ↔
      occursAt needle hay i ∧ ∀ j, j < i → ¬ occursAt needle hay j := by
  induction hay generalizing i with
  | nil =>
    constructor
    · intro h
      unfold seqIdx at h
      split at h
      · rename_i hn
        injection h with h
        subst h
        exact ⟨(occursAt_nil_iff needle 0).mpr hn, fun j hj => by omega⟩
      · cases h
    · rintro ⟨h1, h2⟩
      have hn : needle = [] := (occursAt_nil_iff needle i).mp h1
      have hi : i = 0 := by
        by_contra hne
        exact h2 0 (Nat.pos_of_ne_zero hne) ((occursAt_nil_iff needle 0).mpr hn)
      unfold seqIdx
      simp [hn, hi]
  | cons x t ih =>
    constructor
    · intro h
      unfold seqIdx at h
      split at h
      · rename_i hp
        injection h with h
        subst h
        refine ⟨?_, fun j hj => by omega⟩
        unfold occursAt
        simpa using (isPrefixOf_iff_take needle (x :: t)).mp hp
      · rename_i hp
        rcases Option.map_eq_some'.mp h with ⟨i', hi', rfl⟩
        rcases (ih i').mp hi' with ⟨h1, h2⟩
        refine ⟨h1, ?_⟩
        intro j hj
        match j with
        | 0 =>
          intro hocc
          unfold occursAt at hocc
          simp at hocc
          exact hp ((isPrefixOf_iff_take needle (x :: t)).mpr hocc)
        | j' + 1 =>
          intro hocc
          exact h2 j' (by omega) hocc
    · rintro ⟨h1, h2⟩
      unfold seqIdx
      split
      · rename_i hp
        match i with
        | 0 => rfl
        | i' + 1 =>
          exfalso
          refine h2 0 (by omega) ?_
          unfold occursAt
          simpa using (isPrefixOf_iff_take needle (x :: t)).mp hp
      · rename_i hp
        match i with
        | 0 =>
          exfalso
          unfold occursAt at h1
          simp at h1
          exact hp ((isPrefixOf_iff_take needle (x :: t)).mpr h1)
        | i' + 1 =>
          have : seqIdx needle t = some i' := by
            refine (ih i').mpr ⟨h1, ?_⟩
            intro j hj hocc
            exact h2 (j + 1) (by omega) hocc
          simp [this]

theorem seqIdx_eq_none_iff (needle hay : List Nat) :
    seqIdx needle hay = none ↔ ∀ j, ¬ occursAt needle hay j := by
  induction hay with
  | nil =>
    constructor
    · intro h j hocc
      unfold seqIdx at h
      split at h
      · cases h
      · rename_i hn
        exact hn ((occursAt_nil_iff needle j).mp hocc)
    · intro h
      unfold seqIdx
      split
      · rename_i hn
        exact absurd ((occursAt_nil_iff needle 0).mpr hn) (h 0)
      · rfl
  | cons x t ih =>
    constructor
    · intro h j hocc
      unfold seqIdx at h
      split at h
      · cases h
      · rename_i hp
        simp at h
        match j with
        | 0 =>
          unfold occursAt at hocc
          simp at hocc
          exact hp ((isPrefixOf_iff_take needle (x :: t)).mpr hocc)
        | j' + 1 =>
          exact ih.mp h j' hocc
    · intro h
      unfold seqIdx
      split
      · rename_i hp
        exfalso
        refine h 0 ?_
        unfold occursAt
        simpa using (isPrefixOf_iff_take needle (x :: t)).mp hp
      · simp only [Option.map_eq_none']
        exact ih.mpr fun j hocc => h (j + 1) hocc

/-! ## limitedWriter (sandbox/sandbox.go) -/

/-- Model of `limitedWriter`: `dst` is the contents of the backing
`bytes.Buffer`, `n` the remaining byte budget (Go `int64`, may go negative). -/
structure limitedWriter where
  dst : List Nat
  n : Int
deriving Repr, DecidableEq

/-- Model of `limitedWriter.Write`. The returned `Bool` is `true` exactly when
the Go method returns `errTooMuchOutput` (writes to the backing
`bytes.Buffer` never fail). The deferred `l.n -= int64(len(p))` runs on every
path. -/
def limitedWriter.write (l : limitedWriter) (p : List Nat) : limitedWriter × Bool :=
  if l.n ≤ 0 then
    (⟨l.dst, l.n - p.length⟩, true)
  else if (p.length : Int) > l.n then
    (⟨l.dst ++ p.take l.n.toNat, l.n - p.length⟩, true)
  else
    (⟨l.dst ++ p, l.n - p.length⟩, false)

/-- One `Write` call, keeping only the updated writer state. -/
def limitedWriter.step (s : limitedWriter) (p : List Nat) : limitedWriter :=
  (s.write p).1

/-- State of a fresh `limitedWriter` with capacity `c` after a sequence of
`Write` calls. -/
def limitedWriter.runWrites (c : Nat) (ps : List (List Nat)) : limitedWriter :=
  ps.foldl limitedWriter.step ⟨[], (c : Int)⟩

/-- Whether the `k`-th `Write` call of the sequence reports `errTooMuchOutput`. -/
def limitedWriter.errAt (c : Nat) (ps : List (List Nat)) (k : Nat) : Bool :=
  ((limitedWriter.runWrites c (ps.take k)).write (ps.getD k [])).2

/-- Total number of bytes passed to the first `k` writes. -/
def bytesIn (ps : List (List Nat)) (k : Nat) : Nat :=
  ((ps.take k).map List.length).sum

theorem limitedWriter.step_char (c : Nat) (A p : List Nat) :
    limitedWriter.step ⟨A.take c, (c : Int) - (A.length : Nat)⟩ p
      = ⟨(A ++ p).take c, (c : Int) - ((A.length + p.length : Nat) : Int)⟩ := by
  unfold limitedWriter.step limitedWriter.write
  by_cases h1 : (c : Int) - (A.length : Nat) ≤ 0
  · have hc : c ≤ A.length := by exact_mod_cast by omega
    simp only [if_pos h1]
    congr 1
    · rw [List.take_append_of_le_length hc]
    · push_cast
      ring
  · by_cases h2 : ((p.length : Nat) : Int) > (c : Int) - (A.length : Nat)
    · have hc : A.length < c := by exact_mod_cast by omega
      have hcp : c < A.length + p.length := by exact_mod_cast by omega
      simp only [if_neg h1, if_pos h2]
      congr 1
      · rw [List.take_of_length_le (le_of_lt hc), List.take_append_eq_append_take,
          List.take_of_length_le (le_of_lt hc)]
        congr 2
        omega
      · push_cast
        ring
    · have hc : A.length + p.length ≤ c := by exact_mod_cast by omega
      simp only [if_neg h1, if_neg h2]
      congr 1
      · rw [List.take_of_length_le (by omega),
          List.take_of_length_le (by rw [List.length_append]; omega)]
      · push_cast
        ring

theorem limitedWriter.runWrites_from (c : Nat) (ps : List (List Nat)) :
    ∀ A : List Nat,
      ps.foldl limitedWriter.step ⟨A.take c, (c : Int) - (A.length : Nat)⟩
        = ⟨(A ++ ps.flatten).take c,
            (c : Int) - ((A.length + (ps.map List.length).sum : Nat) : Int)⟩ := by
  induction ps with
  | nil =>
    intro A
    simp
  | cons p t ih =>
    intro A
    rw [List.foldl_cons, limitedWriter.step_char c A p]
    have h2 : (A ++ p).length = A.length + p.length := List.length_append A p
    have := ih (A ++ p)
    rw [h2] at this
    rw [this]
    congr 1
    · rw [List.append_assoc]
      rfl
    · congr 1
      rw [List.map_cons, List.sum_cons]
      push_cast
      ring

/-- Closed form for the writer state after any sequence of writes: the buffer
is always the length-`c` prefix of the concatenated input, and the remaining
budget is `c` minus the total bytes passed in. -/
theorem limitedWriter.runWrites_eq (c : Nat) (ps : List (List Nat)) :
    limitedWriter.runWrites c ps
      = ⟨ps.flatten.take c, (c : Int) - (((ps.map List.length).sum : Nat) : Int)⟩ := by
  have h := limitedWriter.runWrites_from c ps []
  simp only [List.take_nil, List.length_nil, Nat.cast_zero, sub_zero, List.nil_append,
    Nat.zero_add] at h
  simpa [limitedWriter.runWrites] using h

theorem limitedWriter.errAt_iff (c : Nat) (ps : List (List Nat)) (k : Nat) :
    limitedWriter.errAt c ps k = true ↔
      (c ≤ bytesIn ps k ∨ c < bytesIn ps k + (ps.getD k []).length) := by
  unfold limitedWriter.errAt
  rw [limitedWriter.runWrites_eq c (ps.take k)]
  unfold limitedWriter.write
  rw [show ((ps.take k).map List.length).sum = bytesIn ps k from rfl]
  by_cases h1 : (c : Int) - ((bytesIn ps k : Nat) : Int) ≤ 0
  · rw [if_pos h1]
    simp only [true_iff]
    left
    exact_mod_cast by omega
  · rw [if_neg h1]
    by_cases h2 : (((ps.getD k []).length : Nat) : Int) > (c : Int) - ((bytesIn ps k : Nat) : Int)
    · rw [if_pos h2]
      simp only [true_iff]
      right
      exact_mod_cast by omega
    · rw [if_neg h2]
      simp only [Bool.false_eq_true, false_iff, not_or, not_le, not_lt]
      constructor
      · exact_mod_cast by omega
      · exact_mod_cast by omega

theorem bytesIn_succ_of_lt (ps : List (List Nat)) (k : Nat) (h : k < ps.length) :
    bytesIn ps (k + 1) = bytesIn ps k + (ps.getD k []).length := by
  unfold bytesIn
  rw [List.take_succ, List.map_append, List.sum_append]
  congr 1
  have hx : ps[k]? = some ps[k] := List.getElem?_eq_getElem h
  rw [List.getD_eq_getElem?_getD, hx]
  simp

theorem bytesIn_le_succ (ps : List (List Nat)) (j : Nat) :
    bytesIn ps j ≤ bytesIn ps (j + 1) := by
  unfold bytesIn
  rw [List.take_succ, List.map_append, List.sum_append]
  omega

theorem bytesIn_mono (ps : List (List Nat)) {j k : Nat} (h : j ≤ k) :
    bytesIn ps j ≤ bytesIn ps k := by
  induction k, h using Nat.le_induction with
  | base => exact le_refl _
  | succ k hk ih => exact le_trans ih (bytesIn_le_succ ps k)

theorem bytesIn_stable (ps : List (List Nat)) (k : Nat) (h : ps.length ≤ k) :
    bytesIn ps k = bytesIn ps ps.length := by
  unfold bytesIn
  rw [List.take_of_length_le h, List.take_length]

theorem bytesIn_full (ps : List (List Nat)) :
    bytesIn ps ps.length = ps.flatten.length := by
  unfold bytesIn
  rw [List.take_length, List.length_flatten]

/-- C1: for every capacity and every finite sequence of `Write` calls, the
backing buffer holds exactly `min(total, c)` bytes forming a prefix of the
concatenated input; a write that raises the total to exactly `c` succeeds; a
write that pushes the total above `c` errors and leaves exactly `c` bytes;
once some write errored every later write errors too (sticky overflow). -/
theorem C1_limitedWriter_bounds (c : Nat) (ps : List (List Nat)) :
    (limitedWriter.runWrites c ps).dst = ps.flatten.take c ∧
    (limitedWriter.runWrites c ps).dst.length = min (bytesIn ps ps.length) c ∧
    (∀ k, k < ps.length → bytesIn ps k < c → bytesIn ps (k + 1) = c →
      limitedWriter.errAt c ps k = false) ∧
    (∀ k, k < ps.length → c < bytesIn ps (k + 1) →
      limitedWriter.errAt c ps k = true ∧
      (limitedWriter.runWrites c (ps.take (k + 1))).dst.length = c) ∧
    (∀ j k, j ≤ k → limitedWriter.errAt c ps j = true →
      limitedWriter.errAt c ps k = true) := by
  refine ⟨?_, ?_, ?_, ?_, ?_⟩
  · rw [limitedWriter.runWrites_eq]
  · rw [limitedWriter.runWrites_eq]
    simp only [List.length_take, List.length_flatten]
    have h : bytesIn ps ps.length = (ps.map List.length).sum := by
      rw [bytesIn_full, List.length_flatten]
    rw [h]
    exact inf_comm _ _
  · intro k hk hlt heq
    rw [bytesIn_succ_of_lt ps k hk] at heq
    rw [← Bool.not_eq_true, limitedWriter.errAt_iff]
    omega
  · intro k hk hgt
    have hsucc := bytesIn_succ_of_lt ps k hk
    constructor
    · rw [limitedWriter.errAt_iff]
      omega
    · rw [limitedWriter.runWrites_eq]
      simp only [List.length_take, List.length_flatten]
      have : ((ps.take (k + 1)).map List.length).sum = bytesIn ps (k + 1) := rfl
      rw [this]
      omega
  · intro j k hjk herr
    rw [limitedWriter.errAt_iff] at herr ⊢
    rcases Nat.lt_or_ge j ps.length with hj | hj
    · have hsucc := bytesIn_succ_of_lt ps j hj
      have hmono : bytesIn ps (j + 1) ≤ bytesIn ps (max k (j + 1)) := bytesIn_mono ps (by omega)
      rcases Nat.lt_or_ge j k with hlt | hge
      · have : bytesIn ps (j + 1) ≤ bytesIn ps k := bytesIn_mono ps (by omega)
        omega
      · have : j = k := by omega
        subst this
        exact herr
    · have h1 : bytesIn ps j = bytesIn ps ps.length := bytesIn_stable ps j hj
      have h2 : bytesIn ps k = bytesIn ps ps.length := bytesIn_stable ps k (by omega)
      have h3 : (ps.getD j []).length = 0 := by
        rw [List.getD_eq_getElem?_getD, List.getElem?_eq_none (by omega)]
        rfl
      have h4 : bytesIn ps j ≤ bytesIn ps k := bytesIn_mono ps hjk
      omega

/-- C1 witness: capacity 2, writes `[1]`, `[2,3]`, `[4]`; the second write
pushes the total to 3 > 2, so it errors and the buffer holds exactly 2
bytes. -/
theorem C1_limitedWriter_bounds_witness :
    limitedWriter.errAt 2 [[1], [2, 3], [4]] 1 = true ∧
    (limitedWriter.runWrites 2 ([[1], [2, 3], [4]].take (1 + 1))).dst.length = 2 :=
  (C1_limitedWriter_bounds 2 [[1], [2, 3], [4]]).2.2.2.1 1 (by decide) (by decide)

/-! ## The run handler's response dispatch (sandbox/sandbox.go, runHandler) -/

/-- Bytes of a (pure-ASCII) Go string literal. -/
def strBytes (s : String) : List Nat := s.data.map Char.toNat

/-- `containedStderrHeader`, written to stderr by the contained process after
it reads its input. -/
def containedStderrHeader : List Nat := strBytes "golang-gvisor-process-got-input\n"

/-- Model of `cleanStderr`: drop everything up to and including the first
occurrence of `containedStderrHeader`; unchanged when the marker is absent. -/
def cleanStderr (x : List Nat) : List Nat :=
  match seqIdx containedStderrHeader x with
  | none => x
  | some i => x.drop (i + containedStderrHeader.length)

/-- The result of `c.Wait()` as classified by `runHandler`:
`nil`, an `*exec.ExitError`, or any other error. -/
inductive WaitRes
  | noErr
  | exitErr (code : Int)
  | otherErr
deriving Repr, DecidableEq

/-- Model of `sandboxtypes.Response`. `Stdout`/`Stderr` are `none` when the
handler never assigns them (Go `nil` slices). -/
structure Response where
  Error : String
  ExitCode : Int
  Stdout : Option (List Nat)
  Stderr : Option (List Nat)
deriving Repr, DecidableEq

/-- What `runHandler` ultimately emits: either `http.Error` (a 5xx) or a JSON
`Response` via `sendResponse`. -/
inductive HandlerOut
  | httpError (msg : String)
  | resp (r : Response)
deriving Repr, DecidableEq

/-- Model of `sendError`: a `Response` with only the `Error` field set. -/
def sendError (msg : String) : HandlerOut := .resp ⟨msg, 0, none, none⟩

/-- Model of the response dispatch at the tail of `runHandler`, from
`err = c.Wait()` onward. Inputs: whether the run-timeout context fired,
the classified wait error, the two writers' remaining budgets `n`, and the
two buffers' contents. -/
def runRespond (timedOut : Bool) (werr : WaitRes) (stdoutRem stderrRem : Int)
    (outBuf errBuf : List Nat) : HandlerOut :=
  if timedOut then sendError "timeout running program"
  else
    match werr with
    | .noErr => .resp ⟨"", 0, some outBuf, some (cleanStderr errBuf)⟩
    | .exitErr code =>
        if stderrRem < 0 ∨ stdoutRem < 0 then sendError "Output too large"
        else .resp ⟨"", code, some outBuf, some (cleanStderr errBuf)⟩
    | .otherErr =>
        if stderrRem < 0 ∨ stdoutRem < 0 then sendError "Output too large"
        else .httpError "unknown error during docker run"

/-- C2: in every `Response` the handler emits, `error` and a non-zero
`exitCode` are never both set; a response with non-empty `error` is the
timeout or the output-too-large response, with zero exit code and no
stdout/stderr; a response with non-zero exit code has an empty `error`. -/
theorem C2_error_exitCode_exclusive (t : Bool) (w : WaitRes) (sr er : Int)
    (ob eb : List Nat) (r : Response)
    (h : runRespond t w sr er ob eb = .resp r) :
    (¬(r.Error ≠ "" ∧ r.ExitCode ≠ 0)) ∧
    (r.Error ≠ "" →
      (r.Error = "timeout running program" ∨ r.Error = "Output too large") ∧
      r.ExitCode = 0 ∧ r.Stdout = none ∧ r.Stderr = none) ∧
    (r.ExitCode ≠ 0 → r.Error = "") := by
  unfold runRespond sendError at h
  split at h
  · injection h with h
    subst h
    simp
  · split at h
    · injection h with h
      subst h
      simp
    · rename_i code
      split at h
      · injection h with h
        subst h
        simp
      · injection h with h
        subst h
        simp
    · split at h
      · injection h with h
        subst h
        simp
      · cases h

/-- C2 witness: a normal exit with code 1 yields a response with empty
error. -/
theorem C2_error_exitCode_exclusive_witness :
    let r : Response := ⟨"", 1, some [], some []⟩
    (¬(r.Error ≠ "" ∧ r.ExitCode ≠ 0)) ∧
    (r.Error ≠ "" →
      (r.Error = "timeout running program" ∨ r.Error = "Output too large") ∧
      r.ExitCode = 0 ∧ r.Stdout = none ∧ r.Stderr = none) ∧
    (r.ExitCode ≠ 0 → r.Error = "") :=
  C2_error_exitCode_exclusive false (.exitErr 1) 0 0 [] []
    ⟨"", 1, some [], some []⟩ (by decide)

/-- C3 counterexample: two runs whose stderr writer overflowed (`n = -1 < 0`)
that do not produce the output-too-large response. A timed-out run answers
with the timeout error; a run whose `c.Wait()` returned `nil` answers with
the (truncated) output and no error at all. -/
theorem C3_counterexample :
    runRespond true .otherErr (-1) (-1) [] [] =
      .resp ⟨"timeout running program", 0, none, none⟩ ∧
    runRespond false .noErr (-1) (-1) [104] [105] =
      .resp ⟨"", 0, some [104], some [105]⟩ := by
  constructor
  · decide
  · decide

/-- C3 amended: for every run that did not time out and whose `c.Wait()`
returned a non-nil error, if either bounded writer overflowed then the
handler responds `{error: "Output too large"}` with no stdout/stderr. -/
theorem C3_output_too_large (w : WaitRes) (sr er : Int) (ob eb : List Nat)
    (hw : w ≠ .noErr) (hof : er < 0 ∨ sr < 0) :
    runRespond false w sr er ob eb = .resp ⟨"Output too large", 0, none, none⟩ := by
  have hcond : (er < 0 ∨ sr < 0) = True := eq_true hof
  cases w with
  | noErr => exact absurd rfl hw
  | exitErr code => simp [runRespond, sendError, hcond]
  | otherErr => simp [runRespond, sendError, hcond]

/-- C3 witness: non-timeout, non-nil wait error, overflowed stderr. -/
theorem C3_output_too_large_witness :
    runRespond false .otherErr 0 (-1) [] [] =
      .resp ⟨"Output too large", 0, none, none⟩ :=
  C3_output_too_large .otherErr 0 (-1) [] [] (by decide) (by decide)

/-- C8 counterexample: when the input is the stderr-header marker twice in a
row, `cleanStderr` removes only through the first occurrence, so the cleaned
stderr still begins with the marker bytes. -/
theorem C8_counterexample :
    cleanStderr (containedStderrHeader ++ containedStderrHeader) =
      containedStderrHeader ∧
    containedStderrHeader.isPrefixOf
      (cleanStderr (containedStderrHeader ++ containedStderrHeader)) = true := by
  constructor
  · decide
  · decide

/-- C8 amended: `cleanStderr` removes everything up to and including the
first occurrence of the stderr-header marker (and is the identity when the
marker is absent); the cleaned stderr begins with the marker only when the
input contains a second occurrence of the marker immediately after the
first. -/
theorem C8_cleanStderr_strips_marker (x : List Nat) :
    (seqIdx containedStderrHeader x = none →
      cleanStderr x = x ∧ ∀ j, ¬ occursAt containedStderrHeader x j) ∧
    (∀ i, seqIdx containedStderrHeader x = some i →
      cleanStderr x = x.drop (i + containedStderrHeader.length) ∧
      occursAt containedStderrHeader x i ∧
      ∀ j, j < i → ¬ occursAt containedStderrHeader x j) ∧
    (containedStderrHeader.isPrefixOf (cleanStderr x) = true →
      ∃ i, seqIdx containedStderrHeader x = some i ∧
        occursAt containedStderrHeader x (i + containedStderrHeader.length)) := by
  refine ⟨?_, ?_, ?_⟩
  · intro hnone
    refine ⟨?_, (seqIdx_eq_none_iff _ _).mp hnone⟩
    unfold cleanStderr
    rw [hnone]
  · intro i hsome
    rcases (seqIdx_eq_some_iff _ _ i).mp hsome with ⟨h1, h2⟩
    refine ⟨?_, h1, h2⟩
    unfold cleanStderr
    rw [hsome]
  · intro hpre
    cases hidx : seqIdx containedStderrHeader x with
    | none =>
      exfalso
      unfold cleanStderr at hpre
      rw [hidx] at hpre
      refine (seqIdx_eq_none_iff _ _).mp hidx 0 ?_
      unfold occursAt
      simpa using (isPrefixOf_iff_take _ _).mp hpre
    | some i =>
      refine ⟨i, rfl, ?_⟩
      unfold cleanStderr at hpre
      rw [hidx] at hpre
      unfold occursAt
      exact (isPrefixOf_iff_take _ _).mp hpre

/-- C8 witness: marker followed by user bytes is cleaned to the user bytes. -/
theorem C8_cleanStderr_strips_marker_witness :
    cleanStderr (containedStderrHeader ++ [104, 105]) = [104, 105] := by
  have h := (C8_cleanStderr_strips_marker (containedStderrHeader ++ [104, 105])).2.1 0
    (by decide)
  rw [h.1]
  decide

/-! ## Replay codec events and the two-pointer merge (play.go) -/

/-- Model of the unexported `event` struct of play.go; `time` is the
timestamp in unix nanoseconds (Go `time.Time` at nanosecond resolution). -/
structure Ev where
  msg : List Nat
  kind : String
  time : Int
deriving Repr, DecidableEq

/-- A list of events with non-decreasing timestamps. -/
def sortedEv (l : List Ev) : Prop :=
  l.Pairwise (fun u v => u.time ≤ v.time)

/-- Model of `sortedMerge`: two-pointer merge; takes from the first list only
when its head's time is strictly `Before` the second head's time. -/
def sortedMerge : List Ev → List Ev → List Ev
  | [], b => b
  | x :: a, [] => x :: a
  | x :: a, y :: b =>
    if x.time < y.time then x :: sortedMerge a (y :: b)
    else y :: sortedMerge (x :: a) b
termination_by a b => a.length + b.length

theorem sortedMerge_perm (a : List Ev) : ∀ b : List Ev, (sortedMerge a b).Perm (a ++ b) := by
  induction a with
  | nil => intro b; simp [sortedMerge]
  | cons x a iha =>
    intro b
    induction b with
    | nil => simp [sortedMerge]
    | cons y b ihb =>
      simp only [sortedMerge]
      split
      · exact (iha (y :: b)).cons x
      · exact (ihb.cons y).trans List.perm_middle.symm

theorem sortedMerge_sublist_left (a : List Ev) :
    ∀ b : List Ev, a.Sublist (sortedMerge a b) := by
  induction a with
  | nil => intro b; exact List.nil_sublist _
  | cons x a iha =>
    intro b
    induction b with
    | nil => simp [sortedMerge]
    | cons y b ihb =>
      simp only [sortedMerge]
      split
      · exact (iha (y :: b)).cons₂ x
      · exact ihb.cons y

theorem sortedMerge_sublist_right (a : List Ev) :
    ∀ b : List Ev, b.Sublist (sortedMerge a b) := by
  induction a with
  | nil => intro b; simp [sortedMerge]
  | cons x a iha =>
    intro b
    induction b with
    | nil => exact List.nil_sublist _
    | cons y b ihb =>
      simp only [sortedMerge]
      split
      · exact (iha (y :: b)).cons x
      · exact ihb.cons₂ y

theorem sortedMerge_sorted (a : List Ev) :
    ∀ b : List Ev, sortedEv a → sortedEv b → sortedEv (sortedMerge a b) := by
  induction a with
  | nil => intro b _ hb; simpa [sortedMerge] using hb
  | cons x a iha =>
    intro b ha hb
    induction b with
    | nil => simpa [sortedMerge] using ha
    | cons y b ihb =>
      rcases List.pairwise_cons.mp ha with ⟨hxa, ha'⟩
      rcases List.pairwise_cons.mp hb with ⟨hyb, hb'⟩
      simp only [sortedMerge]
      split
      · rename_i hxy
        refine List.pairwise_cons.mpr ⟨?_, iha (y :: b) ha' hb⟩
        intro z hz
        have hz' : z ∈ a ++ y :: b := (sortedMerge_perm a (y :: b)).mem_iff.mp hz
        rcases List.mem_append.mp hz' with hza | hzy
        · exact hxa z hza
        · rcases List.mem_cons.mp hzy with rfl | hzb
          · exact le_of_lt hxy
          · exact le_trans (le_of_lt hxy) (hyb z hzb)
      · rename_i hxy
        push_neg at hxy
        refine List.pairwise_cons.mpr ⟨?_, ihb hb'⟩
        intro z hz
        have hz' : z ∈ x :: a ++ b := (sortedMerge_perm (x :: a) b).mem_iff.mp hz
        have hz'' : z = x ∨ z ∈ a ∨ z ∈ b := by simpa using hz'
        rcases hz'' with rfl | hza | hzb
        · exact hxy
        · exact le_trans hxy (hxa z hza)
        · exact hyb z hzb

/-- C4 counterexample: two single-event streams with equal timestamps. The
merge puts the stderr event (second argument) first, not the stdout event. -/
theorem C4_counterexample :
    sortedMerge [⟨[65], "stdout", 5⟩] [⟨[66], "stderr", 5⟩]
      = [⟨[66], "stderr", 5⟩, ⟨[65], "stdout", 5⟩] := by
  simp [sortedMerge]

/-- C4 amended: `sortedMerge` of two per-stream sequences sorted by
non-decreasing timestamp is a stable two-pointer merge by timestamp — the
output is sorted, is a permutation of the two inputs, preserves the relative
order within each stream — but on equal timestamps the event of the second
argument (stderr) precedes the event of the first argument (stdout). -/
theorem C4_sortedMerge_stable_merge (a b : List Ev)
    (ha : sortedEv a) (hb : sortedEv b) :
    sortedEv (sortedMerge a b) ∧
    (sortedMerge a b).Perm (a ++ b) ∧
    a.Sublist (sortedMerge a b) ∧
    b.Sublist (sortedMerge a b) ∧
    (∀ (x y : Ev) (a' b' : List Ev), x.time = y.time →
      sortedMerge (x :: a') (y :: b') = y :: sortedMerge (x :: a') b') := by
  refine ⟨sortedMerge_sorted a b ha hb, sortedMerge_perm a b,
    sortedMerge_sublist_left a b, sortedMerge_sublist_right a b, ?_⟩
  intro x y a' b' hxy
  simp [sortedMerge, hxy]

/-- C4 witness: two sorted two-event streams. -/
theorem C4_sortedMerge_stable_merge_witness :
    sortedEv (sortedMerge [⟨[65], "stdout", 1⟩] [⟨[66], "stderr", 1⟩, ⟨[67], "stderr", 2⟩]) ∧
    (sortedMerge [⟨[65], "stdout", 1⟩] [⟨[66], "stderr", 1⟩, ⟨[67], "stderr", 2⟩]).Perm
      ([⟨[65], "stdout", 1⟩] ++ [⟨[66], "stderr", 1⟩, ⟨[67], "stderr", 2⟩]) ∧
    List.Sublist [⟨[65], "stdout", 1⟩]
      (sortedMerge [⟨[65], "stdout", 1⟩] [⟨[66], "stderr", 1⟩, ⟨[67], "stderr", 2⟩]) ∧
    List.Sublist [⟨[66], "stderr", 1⟩, ⟨[67], "stderr", 2⟩]
      (sortedMerge [⟨[65], "stdout", 1⟩] [⟨[66], "stderr", 1⟩, ⟨[67], "stderr", 2⟩]) ∧
    (∀ (x y : Ev) (a' b' : List Ev), x.time = y.time →
      sortedMerge (x :: a') (y :: b') = y :: sortedMerge (x :: a') b') :=
  C4_sortedMerge_stable_merge [⟨[65], "stdout", 1⟩] [⟨[66], "stderr", 1⟩, ⟨[67], "stderr", 2⟩]
    (by simp [sortedEv]) (by simp [sortedEv])

/-! ## The per-stream decoder (play.go, `decode`) -/

/-- Big-endian interpretation of a byte list (`binary.BigEndian.UintNN`). -/
def beNat (l : List Nat) : Nat := l.foldl (fun a b => a * 256 + b) 0

/-- Reinterpretation of a `uint64` value as Go `int64`
(`nanos := int64(binary.BigEndian.Uint64(...))`). -/
def toInt64 (x : Nat) : Int := if x < 2 ^ 63 then (x : Int) else (x : Int) - 2 ^ 64

/-- `epoch = time.Unix(1257894000, 0)`, in unix nanoseconds. -/
def epochN : Int := 1257894000 * 1000000000

/-- The playback header magic `"\x00\x00PB"`. -/
def magic : List Nat := [0, 0, 80, 66]

/-- `headerLen = 8 + 4`: the part of a playback header after the magic. -/
def headerLen : Nat := 12

/-- Structural decode failures (`errors.New("short header")`,
`fmt.Errorf("bad length: %v", n)`). -/
inductive DecodeErr
  | shortHeader
  | badLength (n : Nat)
deriving Repr, DecidableEq

/-- Model of the `add` closure inside `decode`: merge into the previous event
when the timestamp is equal, otherwise append a new event. (The closure also
sets `last = t`; the loop model threads that separately.) -/
def addEvent (kind : String) (t : Int) (b : List Nat) (events : List Ev) : List Ev :=
  match events.getLast? with
  | some prev =>
    if t = prev.time then events.dropLast ++ [⟨prev.msg ++ b, prev.kind, prev.time⟩]
    else events ++ [⟨b, kind, t⟩]
  | none => events ++ [⟨b, kind, t⟩]

/-- Model of the header-decoding and payload-slurping part of one `decode`
loop iteration. `rest` holds the bytes just after a magic. On success returns
the (monotonicity-clamped) timestamp, the payload (truncated at end of input,
which is tolerated), and the remaining input. Note `n` is obtained as Go
`int(binary.BigEndian.Uint32(...))` with 64-bit `int`, hence a `Nat` below
`2^32`. -/
def readFrame (last : Int) (rest : List Nat) : Except DecodeErr (Int × List Nat × List Nat) :=
  if rest.length < headerLen then .error .shortHeader
  else
    let nanos := toInt64 (beNat (rest.take 8))
    let t := if nanos < last then last else nanos
    let n := beNat ((rest.drop 8).take 4)
    if (n : Int) < 0 then .error (.badLength n)
    else
      let body := rest.drop headerLen
      .ok (t, body.take n, body.drop n)

/-- The `decode` loop. The `fuel` argument only bounds the number of
iterations; `decode` passes the input length, which always suffices because
every iteration consumes at least one byte. -/
def decodeLoop (kind : String) : Nat → Int → List Ev → List Nat → Except DecodeErr (List Ev)
  | _, _, evs, [] => .ok evs
  | 0, _, evs, _ :: _ => .ok evs
  | fuel + 1, last, evs, out@(_ :: _) =>
    if magic.isPrefixOf out then
      match readFrame last (out.drop 4) with
      | .error e => .error e
      | .ok (t, b, rest) => decodeLoop kind fuel t (addEvent kind t b evs) rest
    else
      match seqIdx magic out with
      | none => .ok (addEvent kind last out evs)
      | some j =>
        match readFrame last (out.drop (j + 4)) with
        | .error e => .error e
        | .ok (t, b, rest) =>
            decodeLoop kind fuel t (addEvent kind t b (addEvent kind last (out.take j) evs)) rest

/-- Model of `decode`. -/
def decode (kind : String) (output : List Nat) : Except DecodeErr (List Ev) :=
  decodeLoop kind output.length epochN [] output

theorem readFrame_error_eq (last : Int) (rest : List Nat) (e : DecodeErr)
    (h : readFrame last rest = .error e) : e = .shortHeader := by
  unfold readFrame at h
  split at h
  · injection h with h
    exact h.symm
  · rw [if_neg (by omega)] at h
    cases h

theorem decodeLoop_no_badLength (kind : String) :
    ∀ (fuel : Nat) (last : Int) (evs : List Ev) (out : List Nat) (n : Nat),
      decodeLoop kind fuel last evs out ≠ .error (.badLength n) := by
  intro fuel
  induction fuel with
  | zero =>
    intro last evs out n
    cases out with
    | nil => simp [decodeLoop]
    | cons x t => simp [decodeLoop]
  | succ fuel ih =>
    intro last evs out n
    cases out with
    | nil => simp [decodeLoop]
    | cons x t =>
      simp only [decodeLoop]
      split
      · cases hrf : readFrame last ((x :: t).drop 4) with
        | error e =>
          simp only [hrf]
          have := readFrame_error_eq _ _ _ hrf
          subst this
          simp
        | ok v =>
          obtain ⟨tt, b, rest⟩ := v
          simp only [hrf]
          exact ih _ _ _ _
      · cases hidx : seqIdx magic (x :: t) with
        | none => simp [hidx]
        | some j =>
          simp only [hidx]
          cases hrf : readFrame last ((x :: t).drop (j + 4)) with
          | error e =>
            simp only [hrf]
            have := readFrame_error_eq _ _ _ hrf
            subst this
            simp
          | ok v =>
            obtain ⟨tt, b, rest⟩ := v
            simp only [hrf]
            exact ih _ _ _ _

/-- C5: the `bad length` check is dead code. The length field is read as
`int(binary.BigEndian.Uint32(...))`; with Go's 64-bit `int` the result is
always non-negative, so an input whose 4-byte length field has the sign bit
set (int32 value `-2147483648`, bytes `80 00 00 00`) decodes successfully —
the field is treated as the huge positive length `2^31` and the (empty)
truncated payload is accepted — and no input whatsoever makes `decode`
return the `bad length` error, contradicting the documented int32 header
layout and the explicit `n < 0` check in the source. -/
theorem C5_bad_length_unreachable :
    decode "stdout" [0, 0, 80, 66, 0, 0, 0, 0, 0, 0, 0, 0, 128, 0, 0, 0] =
      .ok [⟨[], "stdout", epochN⟩] ∧
    ∀ (kind : String) (out : List Nat) (n : Nat),
      decode kind out ≠ .error (.badLength n) := by
  constructor
  · rfl
  · intro kind out n
    exact decodeLoop_no_badLength kind out.length epochN [] out n

/-! ## Round-trip: decoding a stream of well-formed frames (C7) -/

/-- Big-endian encoding of `v` on `w` bytes (the frame writer's format). -/
def beBytes : Nat → Nat → List Nat
  | 0, _ => []
  | w + 1, v => beBytes w (v / 256) ++ [v % 256]

/-- One well-formed framed record: magic, 8-byte big-endian timestamp,
4-byte big-endian length, payload. -/
def encFrame (t : Nat) (payload : List Nat) : List Nat :=
  magic ++ beBytes 8 t ++ beBytes 4 payload.length ++ payload

/-- A whole stream of framed records. -/
def encFrames (recs : List (Nat × List Nat)) : List Nat :=
  (recs.map (fun r => encFrame r.1 r.2)).flatten

theorem beBytes_length (w : Nat) : ∀ v : Nat, (beBytes w v).length = w := by
  induction w with
  | zero => intro v; rfl
  | succ w ih => intro v; simp [beBytes, ih]

theorem beNat_append_one (l : List Nat) (b : Nat) :
    beNat (l ++ [b]) = beNat l * 256 + b := by
  unfold beNat
  rw [List.foldl_append]
  rfl

theorem beNat_beBytes (w : Nat) : ∀ v : Nat, v < 256 ^ w → beNat (beBytes w v) = v := by
  induction w with
  | zero =>
    intro v hv
    interval_cases v
    rfl
  | succ w ih =>
    intro v hv
    have hdiv : v / 256 < 256 ^ w := by
      rw [Nat.div_lt_iff_lt_mul (by norm_num)]
      calc v < 256 ^ (w + 1) := hv
        _ = 256 ^ w * 256 := by ring
    rw [beBytes, beNat_append_one, ih (v / 256) hdiv]
    omega

theorem readFrame_enc (last : Int) (t : Nat) (p rest : List Nat)
    (hp : p.length < 2 ^ 32) :
    ∃ tv : Int, last ≤ tv ∧
      readFrame last ((beBytes 8 t ++ beBytes 4 p.length) ++ (p ++ rest)) =
        .ok (tv, p, rest) := by
  have h8 : (beBytes 8 t).length = 8 := beBytes_length 8 t
  have h4 : (beBytes 4 p.length).length = 4 := beBytes_length 4 p.length
  have h12 : (beBytes 8 t ++ beBytes 4 p.length).length = 12 := by
    rw [List.length_append, h8, h4]
  refine ⟨if toInt64 (beNat (beBytes 8 t)) < last then last
          else toInt64 (beNat (beBytes 8 t)), ?_, ?_⟩
  · split
    · exact le_refl last
    · rename_i hlt
      omega
  · unfold readFrame
    rw [if_neg (by
      rw [List.length_append, h12]
      unfold headerLen
      omega)]
    have htake8 : ((beBytes 8 t ++ beBytes 4 p.length) ++ (p ++ rest)).take 8
        = beBytes 8 t := by
      rw [List.take_append_of_le_length (by rw [h12]; omega),
        List.take_append_of_le_length (by rw [h8]),
        List.take_of_length_le (by rw [h8])]
    have hdrop8 : ((beBytes 8 t ++ beBytes 4 p.length) ++ (p ++ rest)).drop 8
        = beBytes 4 p.length ++ (p ++ rest) := by
      rw [List.drop_append_of_le_length (by rw [h12]; omega),
        List.drop_append_of_le_length (by rw [h8]),
        List.drop_of_length_le (by rw [h8]), List.nil_append]
    have htake4 : (beBytes 4 p.length ++ (p ++ rest)).take 4 = beBytes 4 p.length :=
      List.take_left' h4
    have hbody : ((beBytes 8 t ++ beBytes 4 p.length) ++ (p ++ rest)).drop headerLen
        = p ++ rest := List.drop_left' h12
    rw [htake8, hdrop8, htake4, hbody, beNat_beBytes 4 p.length (by exact_mod_cast hp)]
    rw [if_neg (by omega)]
    simp [List.take_left, List.drop_left]

theorem addEvent_msgs (kind : String) (t : Int) (b : List Nat) (evs : List Ev) :
    ((addEvent kind t b evs).map Ev.msg).flatten = (evs.map Ev.msg).flatten ++ b := by
  cases hl : evs.getLast? with
  | none =>
    have : evs = [] := List.getLast?_eq_none_iff.mp hl
    subst this
    simp [addEvent]
  | some prev =>
    have hne : evs ≠ [] := by
      intro h
      subst h
      simp at hl
    have hprev : prev = evs.getLast hne := by
      rw [List.getLast?_eq_getLast evs hne] at hl
      injection hl with hl
      exact hl.symm
    have hev : evs.dropLast ++ [evs.getLast hne] = evs := List.dropLast_append_getLast hne
    have key : addEvent kind t b evs =
        if t = prev.time then evs.dropLast ++ [⟨prev.msg ++ b, prev.kind, prev.time⟩]
        else evs ++ [⟨b, kind, t⟩] := by
      unfold addEvent
      rw [hl]
    rw [key]
    split
    · conv_rhs => rw [← hev]
      rw [← hprev]
      simp [List.append_assoc]
    · simp

theorem decodeLoop_encFrames (kind : String) (recs : List (Nat × List Nat)) :
    ∀ (fuel : Nat) (last : Int) (evs : List Ev),
      (∀ r ∈ recs, r.2.length < 2 ^ 32) →
      (encFrames recs).length ≤ fuel →
      ∃ evs', decodeLoop kind fuel last evs (encFrames recs) = .ok evs' ∧
        (evs'.map Ev.msg).flatten =
          (evs.map Ev.msg).flatten ++ (recs.map Prod.snd).flatten := by
  induction recs with
  | nil =>
    intro fuel last evs _ _
    refine ⟨evs, ?_, by simp [encFrames]⟩
    cases fuel <;> simp [encFrames, decodeLoop]
  | cons r recs ih =>
    obtain ⟨t, p⟩ := r
    intro fuel last evs hp hfuel
    have hstream : encFrames ((t, p) :: recs)
        = magic ++ ((beBytes 8 t ++ beBytes 4 p.length) ++ (p ++ encFrames recs)) := by
      simp [encFrames, encFrame, List.append_assoc]
    have hlen : (encFrames ((t, p) :: recs)).length
        = 16 + p.length + (encFrames recs).length := by
      rw [hstream]
      simp [magic, beBytes_length]
      omega
    cases fuel with
    | zero => omega
    | succ f =>
      rw [hstream]
      simp only [magic, List.cons_append, List.nil_append]
      simp only [decodeLoop]
      have hpre : magic.isPrefixOf
          (0 :: 0 :: 80 :: 66 :: ((beBytes 8 t ++ beBytes 4 p.length) ++ (p ++ encFrames recs)))
          = true := by
        rw [isPrefixOf_iff_take]
        rfl
      rw [if_pos hpre]
      have hdrop4 : (0 :: 0 :: 80 :: 66 :: ((beBytes 8 t ++ beBytes 4 p.length) ++ (p ++ encFrames recs))).drop 4
          = (beBytes 8 t ++ beBytes 4 p.length) ++ (p ++ encFrames recs) := rfl
      rw [hdrop4]
      obtain ⟨tv, htv, hrf⟩ := readFrame_enc last t p (encFrames recs)
        (hp (t, p) (List.mem_cons_self _ _))
      rw [hrf]
      obtain ⟨evs', h1, h2⟩ := ih f tv (addEvent kind tv p evs)
        (fun r hr => hp r (List.mem_cons_of_mem _ hr)) (by omega)
      refine ⟨evs', h1, ?_⟩
      rw [h2, addEvent_msgs]
      simp [List.append_assoc]

/-- C7: decoding a stream of well-formed framed records (magic, 8-byte
big-endian timestamp, 4-byte big-endian length, exactly that many payload
bytes) with non-decreasing timestamps succeeds, and the concatenation of the
decoded events' payloads equals the concatenation of the record payloads in
order. -/
theorem C7_decode_roundtrip (kind : String) (recs : List (Nat × List Nat))
    (_hmono : List.Chain' (· ≤ ·) (recs.map Prod.fst))
    (_hts : ∀ r ∈ recs, r.1 < 2 ^ 64)
    (hp : ∀ r ∈ recs, r.2.length < 2 ^ 32) :
    ∃ evs, decode kind (encFrames recs) = .ok evs ∧
      (evs.map Ev.msg).flatten = (recs.map Prod.snd).flatten := by
  obtain ⟨evs', h1, h2⟩ :=
    decodeLoop_encFrames kind recs (encFrames recs).length epochN [] hp (le_refl _)
  exact ⟨evs', h1, by simpa using h2⟩

/-- C7 witness: two frames, one second apart, payloads `A` and `BC`. -/
theorem C7_decode_roundtrip_witness :
    ∃ evs, decode "stdout"
        (encFrames [(1257894001000000000, [65]), (1257894002000000000, [66, 67])]) = .ok evs ∧
      (evs.map Ev.msg).flatten =
        ([(1257894001000000000, [65]), (1257894002000000000, [66, 67])].map Prod.snd).flatten :=
  C7_decode_roundtrip "stdout" [(1257894001000000000, [65]), (1257894002000000000, [66, 67])]
    (by norm_num [List.chain'_cons]) (by decide) (by decide)

/-! ## UTF-8 sanitization and event delays (play.go, `Recorder.Events`) -/

/-- A UTF-8 continuation byte (`0x80..0xBF`). -/
def contByte (b : Nat) : Bool := 128 ≤ b && b ≤ 191

/-- Model of Go `utf8.DecodeRune`: the first rune of the byte list and the
number of bytes consumed; `(0xFFFD, 1)` for invalid or truncated encodings
(and `(0xFFFD, 0)` on empty input, which the loops never hit). -/
def decodeRune : List Nat → Nat × Nat
  | [] => (65533, 0)
  | b0 :: rest =>
    if b0 < 128 then (b0, 1)
    else if 194 ≤ b0 && b0 ≤ 223 then
      match rest with
      | b1 :: _ =>
        if contByte b1 then ((b0 - 192) * 64 + (b1 - 128), 2) else (65533, 1)
      | [] => (65533, 1)
    else if 224 ≤ b0 && b0 ≤ 239 then
      match rest with
      | b1 :: b2 :: _ =>
        if ((if b0 = 224 then 160 else 128) ≤ b1 && b1 ≤ (if b0 = 237 then 159 else 191))
            && contByte b2 then
          ((b0 - 224) * 4096 + (b1 - 128) * 64 + (b2 - 128), 3)
        else (65533, 1)
      | _ => (65533, 1)
    else if 240 ≤ b0 && b0 ≤ 244 then
      match rest with
      | b1 :: b2 :: b3 :: _ =>
        if (((if b0 = 240 then 144 else 128) ≤ b1 && b1 ≤ (if b0 = 244 then 143 else 191))
            && contByte b2) && contByte b3 then
          ((b0 - 240) * 262144 + (b1 - 128) * 4096 + (b2 - 128) * 64 + (b3 - 128), 4)
        else (65533, 1)
      | _ => (65533, 1)
    else (65533, 1)

/-- Standard UTF-8 encoding of a scalar value (`bytes.Buffer.WriteRune`). -/
def encodeRune (r : Nat) : List Nat :=
  if r < 128 then [r]
  else if r < 2048 then [192 + r / 64, 128 + r % 64]
  else if r < 65536 then [224 + r / 4096, 128 + r / 64 % 64, 128 + r % 64]
  else [240 + r / 262144, 128 + r / 4096 % 64, 128 + r / 64 % 64, 128 + r % 64]

/-- Model of `utf8.Valid`: scanning with `decodeRune` never hits an invalid
sequence. Fueled by the input length (each step consumes at least a byte). -/
def validLoop : Nat → List Nat → Bool
  | _, [] => true
  | 0, _ :: _ => true
  | fuel + 1, l@(_ :: _) =>
    if (decodeRune l).2 == 1 && (decodeRune l).1 == 65533 then false
    else validLoop fuel (l.drop (decodeRune l).2)

/-- The re-encoding loop of `sanitize` (decode a rune, write it back). -/
def sanitizeLoop : Nat → List Nat → List Nat
  | _, [] => []
  | 0, _ :: _ => []
  | fuel + 1, l@(_ :: _) =>
    encodeRune (decodeRune l).1 ++ sanitizeLoop fuel (l.drop (decodeRune l).2)

/-- Model of `sanitize`: valid input is returned unchanged, otherwise it is
re-encoded rune by rune with U+FFFD substituted for invalid sequences. -/
def sanitize (b : List Nat) : List Nat :=
  if validLoop b.length b then b else sanitizeLoop b.length b

/-- Model of the exported `Event` struct (`Message` is the sanitized bytes of
the Go string; `Delay` is a `time.Duration` in nanoseconds). -/
structure Event where
  Message : List Nat
  Kind : String
  Delay : Int
deriving Repr, DecidableEq

/-- Model of the delay-assignment loop at the end of `Recorder.Events`:
`delay = e.time - now` clamped at 0; `now` advances to `e.time` only when the
clamped delay is positive. -/
def delayOut : Int → List Ev → List Event
  | _, [] => []
  | now, e :: rest =>
    ⟨sanitize e.msg, e.kind, if e.time - now < 0 then 0 else e.time - now⟩ ::
      delayOut (if 0 < (if e.time - now < 0 then 0 else e.time - now) then e.time else now) rest

/-- Model of `Recorder.Events` as a function of the two recorded streams. -/
def recorderEvents (stdout stderr : List Nat) : Except DecodeErr (List Event) :=
  match decode "stdout" stdout with
  | .error e => .error e
  | .ok evOut =>
    match decode "stderr" stderr with
    | .error e => .error e
    | .ok evErr => .ok (delayOut epochN (sortedMerge evOut evErr))

/-- The value of the `now` cursor after the delay loop. -/
def runNow (now : Int) (evs : List Ev) : Int :=
  evs.foldl (fun a e => max a e.time) now

theorem delayOut_nonneg : ∀ (evs : List Ev) (now : Int),
    ∀ ev ∈ delayOut now evs, 0 ≤ ev.Delay := by
  intro evs
  induction evs with
  | nil =>
    intro now ev h
    simp [delayOut] at h
  | cons e rest ih =>
    intro now ev h
    rw [delayOut, List.mem_cons] at h
    rcases h with rfl | h
    · simp only
      split <;> omega
    · exact ih _ ev h

theorem delayOut_sum : ∀ (evs : List Ev) (now : Int),
    ((delayOut now evs).map Event.Delay).sum = runNow now evs - now := by
  intro evs
  induction evs with
  | nil =>
    intro now
    simp [delayOut, runNow]
  | cons e rest ih =>
    intro now
    rw [delayOut, List.map_cons, List.sum_cons]
    have hrun : runNow now (e :: rest) = runNow (max now e.time) rest := rfl
    by_cases h : e.time - now < 0
    · rw [if_pos h, hrun, max_eq_left (by omega), if_neg (by omega), ih now]
      simp
    · by_cases h2 : (0 : Int) < e.time - now
      · rw [if_neg h, if_pos h2, hrun, max_eq_right (by omega), ih e.time]
        simp only
        omega
      · have hteq : e.time = now := by omega
        rw [if_neg h, if_neg h2, hrun, hteq, max_self, ih now]
        simp only
        omega

theorem runNow_sorted : ∀ (evs : List Ev) (now : Int), sortedEv evs →
    runNow now evs = (evs.getLast?).elim now (fun e => max now e.time) := by
  intro evs
  induction evs with
  | nil =>
    intro now _
    rfl
  | cons e rest ih =>
    intro now hs
    rcases List.pairwise_cons.mp hs with ⟨he, hs'⟩
    have hrun : runNow now (e :: rest) = runNow (max now e.time) rest := rfl
    cases rest with
    | nil => rfl
    | cons r rest' =>
      rw [hrun, ih (max now e.time) hs', List.getLast?_cons_cons]
      have hne : (r :: rest') ≠ [] := by simp
      rw [List.getLast?_eq_getLast (r :: rest') hne]
      have hgl : (r :: rest').getLast hne ∈ r :: rest' := List.getLast_mem hne
      have hle : e.time ≤ ((r :: rest').getLast hne).time := he _ hgl
      simp only [Option.elim]
      omega

theorem sortedEv_iff_map (l : List Ev) :
    sortedEv l ↔ (l.map Ev.time).Pairwise (· ≤ ·) := by
  unfold sortedEv
  rw [List.pairwise_map]

/-- Invariant carried through the decode loop: `last` never went below the
epoch, event times are between the epoch and `last`, and the events are
sorted. -/
def decodeInv (last : Int) (evs : List Ev) : Prop :=
  epochN ≤ last ∧ (∀ e ∈ evs, epochN ≤ e.time ∧ e.time ≤ last) ∧ sortedEv evs

/-- The three possible shapes of `addEvent`'s result. -/
theorem addEvent_shape (kind : String) (t : Int) (b : List Nat) (evs : List Ev) :
    (evs = [] ∧ addEvent kind t b evs = [⟨b, kind, t⟩]) ∨
    (∃ hne : evs ≠ [], t = (evs.getLast hne).time ∧
      addEvent kind t b evs = evs.dropLast ++
        [⟨(evs.getLast hne).msg ++ b, (evs.getLast hne).kind, (evs.getLast hne).time⟩]) ∨
    (addEvent kind t b evs = evs ++ [⟨b, kind, t⟩]) := by
  cases hl : evs.getLast? with
  | none =>
    have he : evs = [] := List.getLast?_eq_none_iff.mp hl
    subst he
    exact Or.inl ⟨rfl, by simp [addEvent]⟩
  | some prev =>
    have hne : evs ≠ [] := by
      intro h
      subst h
      simp at hl
    have hprev : prev = evs.getLast hne := by
      rw [List.getLast?_eq_getLast evs hne] at hl
      injection hl with hl
      exact hl.symm
    have key : addEvent kind t b evs =
        if t = prev.time then evs.dropLast ++ [⟨prev.msg ++ b, prev.kind, prev.time⟩]
        else evs ++ [⟨b, kind, t⟩] := by
      unfold addEvent
      rw [hl]
    by_cases hteq : t = prev.time
    · refine Or.inr (Or.inl ⟨hne, ?_, ?_⟩)
      · rw [← hprev, ← hteq]
      · rw [key, if_pos hteq, hprev]
    · exact Or.inr (Or.inr (by rw [key, if_neg hteq]))

theorem addEvent_inv (kind : String) (t : Int) (b : List Nat) (evs : List Ev) (last : Int)
    (hle : last ≤ t) (hinv : decodeInv last evs) : decodeInv t (addEvent kind t b evs) := by
  obtain ⟨h1, h2, h3⟩ := hinv
  refine ⟨le_trans h1 hle, ?_, ?_⟩
  · intro e hthe
    rcases addEvent_shape kind t b evs with ⟨hnil, hsh⟩ | ⟨hne, hteq, hsh⟩ | hsh
    · rw [hsh, List.mem_singleton] at hthe
      subst hthe
      exact ⟨le_trans h1 hle, le_refl t⟩
    · rw [hsh, List.mem_append] at hthe
      rcases hthe with hd | hs
      · have hm : e ∈ evs := (List.dropLast_sublist evs).mem hd
        exact ⟨(h2 e hm).1, le_trans (h2 e hm).2 hle⟩
      · rw [List.mem_singleton] at hs
        subst hs
        have hm : evs.getLast hne ∈ evs := List.getLast_mem hne
        exact ⟨(h2 _ hm).1, by simp [← hteq]⟩
    · rw [hsh, List.mem_append] at hthe
      rcases hthe with hd | hs
      · exact ⟨(h2 e hd).1, le_trans (h2 e hd).2 hle⟩
      · rw [List.mem_singleton] at hs
        subst hs
        exact ⟨le_trans h1 hle, le_refl t⟩
  · rcases addEvent_shape kind t b evs with ⟨hnil, hsh⟩ | ⟨hne, hteq, hsh⟩ | hsh
    · rw [hsh]
      simp [sortedEv]
    · rw [hsh, sortedEv_iff_map]
      have hev : evs.dropLast ++ [evs.getLast hne] = evs := List.dropLast_append_getLast hne
      have hmm : (evs.dropLast ++
          [(⟨(evs.getLast hne).msg ++ b, (evs.getLast hne).kind,
            (evs.getLast hne).time⟩ : Ev)]).map Ev.time = evs.map Ev.time := by
        conv_rhs => rw [← hev]
        simp
      rw [hmm, ← sortedEv_iff_map]
      exact h3
    · rw [hsh]
      unfold sortedEv
      rw [List.pairwise_append]
      refine ⟨h3, by simp, ?_⟩
      intro u hu v hv
      rw [List.mem_singleton] at hv
      subst hv
      exact le_trans (h2 u hu).2 hle

theorem readFrame_le (last : Int) (rest : List Nat) (t : Int) (b r : List Nat)
    (h : readFrame last rest = .ok (t, b, r)) : last ≤ t := by
  unfold readFrame at h
  split at h
  · cases h
  · rw [if_neg (by omega)] at h
    simp only [Except.ok.injEq, Prod.mk.injEq] at h
    obtain ⟨h, -, -⟩ := h
    subst h
    split
    · exact le_refl last
    · rename_i hlt
      omega

theorem decodeLoop_inv (kind : String) :
    ∀ (fuel : Nat) (out : List Nat) (last : Int) (evs evs' : List Ev),
      decodeLoop kind fuel last evs out = .ok evs' →
      decodeInv last evs →
      ∃ last', last ≤ last' ∧ decodeInv last' evs' := by
  intro fuel
  induction fuel with
  | zero =>
    intro out last evs evs' h hinv
    cases out with
    | nil =>
      injection h with h
      subst h
      exact ⟨last, le_refl _, hinv⟩
    | cons x txs =>
      injection h with h
      subst h
      exact ⟨last, le_refl _, hinv⟩
  | succ fuel ih =>
    intro out last evs evs' h hinv
    cases out with
    | nil =>
      injection h with h
      subst h
      exact ⟨last, le_refl _, hinv⟩
    | cons x txs =>
      rw [decodeLoop] at h
      split at h
      · split at h
        · simp at h
        · rename_i t b rest hrf
          have hle := readFrame_le _ _ _ _ _ hrf
          obtain ⟨last', hl1, hl2⟩ := ih rest t _ evs' h
            (addEvent_inv kind t b evs last hle hinv)
          exact ⟨last', le_trans hle hl1, hl2⟩
      · split at h
        · injection h with h
          subst h
          exact ⟨last, le_refl _, addEvent_inv kind last (x :: txs) evs last (le_refl _) hinv⟩
        · rename_i j hidx
          split at h
          · simp at h
          · rename_i t b rest hrf
            have hle := readFrame_le _ _ _ _ _ hrf
            have hinv1 : decodeInv last (addEvent kind last ((x :: txs).take j) evs) :=
              addEvent_inv kind last _ evs last (le_refl _) hinv
            obtain ⟨last', hl1, hl2⟩ := ih rest t _ evs' h
              (addEvent_inv kind t b _ last hle hinv1)
            exact ⟨last', le_trans hle hl1, hl2⟩

theorem decode_sorted (kind : String) (out : List Nat) (evs : List Ev)
    (h : decode kind out = .ok evs) :
    sortedEv evs ∧ ∀ e ∈ evs, epochN ≤ e.time := by
  have hinv : decodeInv epochN [] := ⟨le_refl _, by simp, by simp [sortedEv]⟩
  obtain ⟨last', -, -, h2, h3⟩ := decodeLoop_inv kind out.length out epochN [] evs h hinv
  exact ⟨h3, fun e he => (h2 e he).1⟩

/-- C6: whenever both per-stream decodes succeed, `Recorder.Events` succeeds,
every emitted `Delay` is non-negative, and the sum of all delays equals the
timestamp of the last merged event minus the epoch (the `now` cursor advances
only on strictly positive delays, so events sharing a tick contribute zero). -/
theorem C6_delay_sum (so se : List Nat) (evOut evErr : List Ev)
    (ho : decode "stdout" so = .ok evOut) (he : decode "stderr" se = .ok evErr) :
    recorderEvents so se = .ok (delayOut epochN (sortedMerge evOut evErr)) ∧
    (∀ ev ∈ delayOut epochN (sortedMerge evOut evErr), 0 ≤ ev.Delay) ∧
    ((delayOut epochN (sortedMerge evOut evErr)).map Event.Delay).sum =
      ((sortedMerge evOut evErr).getLast?).elim epochN Ev.time - epochN := by
  obtain ⟨hso, hgo⟩ := decode_sorted "stdout" so evOut ho
  obtain ⟨hse, hge⟩ := decode_sorted "stderr" se evErr he
  have hms : sortedEv (sortedMerge evOut evErr) := sortedMerge_sorted _ _ hso hse
  have hmem : ∀ e ∈ sortedMerge evOut evErr, epochN ≤ e.time := by
    intro e hthe
    have := (sortedMerge_perm evOut evErr).mem_iff.mp hthe
    rcases List.mem_append.mp this with h | h
    · exact hgo e h
    · exact hge e h
  refine ⟨?_, delayOut_nonneg _ epochN, ?_⟩
  · unfold recorderEvents
    rw [ho, he]
  · rw [delayOut_sum, runNow_sorted _ epochN hms]
    cases hgl : (sortedMerge evOut evErr).getLast? with
    | none => simp
    | some gl =>
      have hne : sortedMerge evOut evErr ≠ [] := by
        intro hnil
        rw [hnil] at hgl
        cases hgl
      have hglm : gl ∈ sortedMerge evOut evErr := by
        rw [List.getLast?_eq_getLast _ hne] at hgl
        injection hgl with hgl
        rw [← hgl]
        exact List.getLast_mem hne
      have : epochN ≤ gl.time := hmem gl hglm
      simp only [Option.elim]
      omega

/-- C6 witness: one stdout frame one second after the epoch, empty stderr. -/
theorem C6_delay_sum_witness :
    recorderEvents (encFrames [(1257894001000000000, [65])]) [] =
      .ok (delayOut epochN
        (sortedMerge [⟨[65], "stdout", 1257894001000000000⟩] [])) ∧
    (∀ ev ∈ delayOut epochN
        (sortedMerge [⟨[65], "stdout", 1257894001000000000⟩] []), 0 ≤ ev.Delay) ∧
    ((delayOut epochN
        (sortedMerge [⟨[65], "stdout", 1257894001000000000⟩] [])).map Event.Delay).sum =
      ((sortedMerge [⟨[65], "stdout", 1257894001000000000⟩] []).getLast?).elim epochN
        Ev.time - epochN :=
  C6_delay_sum (encFrames [(1257894001000000000, [65])]) []
    [⟨[65], "stdout", 1257894001000000000⟩] [] (by rfl) (by rfl)

/-! ## switchWriter (sandbox/sandbox.go) -/

/-- Model of `switchWriter`: routes bytes to `dst1` until `switchAfter` has
been written, then to `dst2`; `buf` is the scan window kept while the marker
has not been found. Destinations are byte sinks (their writes never fail). -/
structure switchWriter where
  dst1 : List Nat
  dst2 : List Nat
  switchAfter : List Nat
  buf : List Nat
  found : Bool
deriving Repr, DecidableEq

/-- Model of `switchWriter.Write`. -/
def switchWriter.write (s : switchWriter) (p : List Nat) : switchWriter :=
  if s.found then { s with dst2 := s.dst2 ++ p }
  else
    let buf := s.buf ++ p
    match seqIdx s.switchAfter buf with
    | none =>
      { s with
        buf := (if s.switchAfter.length ≤ buf.length
                then buf.drop (buf.length - s.switchAfter.length + 1) else buf),
        dst1 := s.dst1 ++ p }
    | some i =>
      { s with
        found := true,
        buf := ([] : List Nat),
        dst1 := s.dst1 ++ p.take (p.length - (buf.length - (i + s.switchAfter.length))),
        dst2 := s.dst2 ++ p.drop (p.length - (buf.length - (i + s.switchAfter.length))) }

/-- A fresh `switchWriter` (as built by `startContainer`) after a sequence of
`Write` calls. -/
def runSW (marker : List Nat) (ws : List (List Nat)) : switchWriter :=
  ws.foldl switchWriter.write ⟨[], [], marker, [], false⟩

/-- The scan window: the last `min (s.length) (m - 1)` bytes of `s`. -/
def tailWin (m : Nat) (s : List Nat) : List Nat := s.drop (s.length + 1 - m)

theorem runSW_append_one (marker : List Nat) (ws : List (List Nat)) (p : List Nat) :
    runSW marker (ws ++ [p]) = (runSW marker ws).write p := by
  unfold runSW
  rw [List.foldl_append]
  rfl

theorem write_step_found (d1 d2 marker buf p : List Nat) :
    switchWriter.write ⟨d1, d2, marker, buf, true⟩ p = ⟨d1, d2 ++ p, marker, buf, true⟩ := by
  simp [switchWriter.write]

theorem write_step_notFound_none (d1 d2 marker buf p : List Nat)
    (h : seqIdx marker (buf ++ p) = none) :
    switchWriter.write ⟨d1, d2, marker, buf, false⟩ p =
      ⟨d1 ++ p, d2, marker,
        (if marker.length ≤ (buf ++ p).length
         then (buf ++ p).drop ((buf ++ p).length - marker.length + 1)
         else buf ++ p), false⟩ := by
  simp [switchWriter.write, h]

theorem write_step_notFound_some (d1 d2 marker buf p : List Nat) (i : Nat)
    (h : seqIdx marker (buf ++ p) = some i) :
    switchWriter.write ⟨d1, d2, marker, buf, false⟩ p =
      ⟨d1 ++ p.take (p.length - ((buf ++ p).length - (i + marker.length))),
        d2 ++ p.drop (p.length - ((buf ++ p).length - (i + marker.length))),
        marker, [], true⟩ := by
  simp [switchWriter.write, h]

theorem occursAt_append_left {m a : List Nat} {q : Nat} (p : List Nat) (hm : m ≠ [])
    (h : occursAt m a q) : occursAt m (a ++ p) q := by
  have hle := occursAt_length_le h hm
  unfold occursAt at h ⊢
  rw [List.drop_append_of_le_length (by omega),
    List.take_append_of_le_length (by rw [List.length_drop]; omega)]
  exact h

theorem occursAt_append_within {m a p : List Nat} {q : Nat}
    (h : occursAt m (a ++ p) q) (hq : q + m.length ≤ a.length) : occursAt m a q := by
  unfold occursAt at h ⊢
  rw [List.drop_append_of_le_length (by omega),
    List.take_append_of_le_length (by rw [List.length_drop]; omega)] at h
  exact h

theorem occursAt_drop_iff {m t : List Nat} (d k : Nat) :
    occursAt m (t.drop d) k ↔ occursAt m t (d + k) := by
  unfold occursAt
  have hdd : (t.drop d).drop k = t.drop (d + k) := by
    rw [List.drop_drop]
  rw [hdd]

theorem seqIdx_suffix_none {m t : List Nat} (d : Nat)
    (h : seqIdx m t = none) : seqIdx m (t.drop d) = none := by
  rw [seqIdx_eq_none_iff] at h ⊢
  intro j hocc
  rw [occursAt_drop_iff] at hocc
  exact h (d + j) hocc

theorem seqIdx_drop_of_first {m t : List Nat} {d idx : Nat}
    (hfirst : seqIdx m t = some idx) (hd : d ≤ idx) :
    seqIdx m (t.drop d) = some (idx - d) := by
  rcases (seqIdx_eq_some_iff m t idx).mp hfirst with ⟨hocc, hmin⟩
  apply (seqIdx_eq_some_iff m (t.drop d) (idx - d)).mpr
  constructor
  · rw [occursAt_drop_iff]
    rw [show d + (idx - d) = idx by omega]
    exact hocc
  · intro j hj hocc'
    rw [occursAt_drop_iff] at hocc'
    exact hmin (d + j) (by omega) hocc'

theorem seqIdx_append_of_some {m s : List Nat} {idx : Nat} (hm : m ≠ [])
    (h : seqIdx m s = some idx) (p : List Nat) :
    seqIdx m (s ++ p) = some idx := by
  rcases (seqIdx_eq_some_iff m s idx).mp h with ⟨hocc, hmin⟩
  have hle := occursAt_length_le hocc hm
  apply (seqIdx_eq_some_iff m (s ++ p) idx).mpr
  constructor
  · exact occursAt_append_left p hm hocc
  · intro j hj hocc'
    exact hmin j hj (occursAt_append_within hocc' (by omega))

theorem tailWin_append (m : Nat) (s p : List Nat) (hm : 1 ≤ m) :
    tailWin m s ++ p = (s ++ p).drop (s.length + 1 - m) := by
  unfold tailWin
  rw [List.drop_append_of_le_length (by omega)]

/-- Appending to the scan window and re-trimming yields the scan window of
the extended stream. -/
theorem window_update (m : Nat) (hm1 : 1 ≤ m) (s p : List Nat) :
    (if m ≤ (tailWin m s ++ p).length
     then (tailWin m s ++ p).drop ((tailWin m s ++ p).length - m + 1)
     else tailWin m s ++ p) = tailWin m (s ++ p) := by
  have hbuf : tailWin m s ++ p = (s ++ p).drop (s.length + 1 - m) := tailWin_append m s p hm1
  have hlen : (tailWin m s ++ p).length = s.length + p.length - (s.length + 1 - m) := by
    rw [hbuf, List.length_drop, List.length_append]
  have hsp : (s ++ p).length = s.length + p.length := List.length_append s p
  split
  · rename_i hc
    rw [hlen] at hc
    rw [hlen, hbuf, List.drop_drop]
    unfold tailWin
    rw [hsp]
    congr 1
    omega
  · rename_i hc
    rw [hlen] at hc
    push_neg at hc
    rw [hbuf]
    unfold tailWin
    rw [hsp]
    congr 1
    omega

/-- The full invariant of the switch writer over any sequence of writes:
while the stream written so far has no occurrence of the marker, everything
has gone to `dst1` and `buf` is the scan window; once the stream contains the
marker (first occurrence at `idx`), the writer has switched, `dst1` holds the
stream up to and including that occurrence, and `dst2` the bytes after it. -/
theorem runSW_inv (marker : List Nat) (hm : marker ≠ []) :
    ∀ ws : List (List Nat),
      (seqIdx marker ws.flatten = none →
        runSW marker ws =
          ⟨ws.flatten, [], marker, tailWin marker.length ws.flatten, false⟩) ∧
      (∀ idx, seqIdx marker ws.flatten = some idx →
        runSW marker ws =
          ⟨ws.flatten.take (idx + marker.length),
            ws.flatten.drop (idx + marker.length), marker, [], true⟩) := by
  have hm1 : 1 ≤ marker.length := List.length_pos.mpr hm
  intro ws
  induction ws using List.reverseRecOn with
  | nil =>
    constructor
    · intro _
      unfold runSW tailWin
      simp
    · intro idx hidx
      simp only [List.flatten_nil] at hidx
      rw [seqIdx, if_neg hm] at hidx
      cases hidx
  | append_singleton ws p ih =>
    obtain ⟨ihA, ihB⟩ := ih
    have hflat : (ws ++ [p]).flatten = ws.flatten ++ p := by simp
    constructor
    · intro hnone
      rw [hflat] at hnone
      have hnone_s : seqIdx marker ws.flatten = none := by
        rw [seqIdx_eq_none_iff] at hnone ⊢
        intro j hocc
        exact hnone j (occursAt_append_left p hm hocc)
      rw [runSW_append_one, ihA hnone_s]
      have hnone' : seqIdx marker (tailWin marker.length ws.flatten ++ p) = none := by
        rw [tailWin_append marker.length ws.flatten p hm1]
        exact seqIdx_suffix_none _ hnone
      rw [write_step_notFound_none _ _ _ _ _ hnone', hflat, switchWriter.mk.injEq]
      exact ⟨rfl, rfl, rfl, window_update marker.length hm1 ws.flatten p, rfl⟩
    · intro idx hidx
      rw [hflat] at hidx
      cases hcase : seqIdx marker ws.flatten with
      | none =>
        have hno_s : ∀ q, ¬ occursAt marker ws.flatten q :=
          (seqIdx_eq_none_iff _ _).mp hcase
        rcases (seqIdx_eq_some_iff _ _ idx).mp hidx with ⟨hocc, hmin⟩
        have hend := occursAt_length_le hocc hm
        rw [List.length_append] at hend
        have hgt : ws.flatten.length < idx + marker.length := by
          by_contra hle
          push_neg at hle
          exact hno_s idx (occursAt_append_within hocc hle)
        have hd_le : ws.flatten.length + 1 - marker.length ≤ idx := by omega
        rw [runSW_append_one, ihA hcase]
        have hbuf : tailWin marker.length ws.flatten ++ p
            = (ws.flatten ++ p).drop (ws.flatten.length + 1 - marker.length) :=
          tailWin_append marker.length ws.flatten p hm1
        have hlenw : (tailWin marker.length ws.flatten ++ p).length
            = ws.flatten.length + p.length - (ws.flatten.length + 1 - marker.length) := by
          rw [hbuf, List.length_drop, List.length_append]
        have hfd : seqIdx marker (tailWin marker.length ws.flatten ++ p)
            = some (idx - (ws.flatten.length + 1 - marker.length)) := by
          rw [hbuf]
          exact seqIdx_drop_of_first hidx hd_le
        rw [write_step_notFound_some _ _ _ _ _ _ hfd, hflat, switchWriter.mk.injEq]
        have hA : p.length - ((tailWin marker.length ws.flatten ++ p).length
            - (idx - (ws.flatten.length + 1 - marker.length) + marker.length))
            = idx + marker.length - ws.flatten.length := by
          rw [hlenw]
          omega
        refine ⟨?_, ?_, rfl, rfl, rfl⟩
        · rw [hA, List.take_append_eq_append_take,
            List.take_of_length_le (by omega : ws.flatten.length ≤ idx + marker.length)]
        · rw [hA, List.drop_append_eq_append_drop,
            List.drop_eq_nil_of_le (by omega : ws.flatten.length ≤ idx + marker.length),
            List.nil_append]
      | some jdx =>
        have hBs := ihB jdx hcase
        have hstable : seqIdx marker (ws.flatten ++ p) = some jdx :=
          seqIdx_append_of_some hm hcase p
        have hij : idx = jdx := by
          rw [hidx] at hstable
          injection hstable
        subst hij
        rcases (seqIdx_eq_some_iff _ _ idx).mp hcase with ⟨hocc, -⟩
        have hend := occursAt_length_le hocc hm
        rw [runSW_append_one, hBs, write_step_found, hflat, switchWriter.mk.injEq]
        refine ⟨?_, ?_, rfl, rfl, rfl⟩
        · rw [List.take_append_of_le_length hend]
        · rw [List.drop_append_of_le_length hend]

/-- C9: for every marker and every partition of a byte stream containing the
marker into consecutive `Write` calls — including partitions splitting the
marker across calls — the switch writer ends with `found = true`, its first
destination received exactly the stream prefix up to and including the first
occurrence of the marker, and its second destination the bytes after it. -/
theorem C9_switchWriter_split (marker : List Nat) (ws : List (List Nat)) (idx : Nat)
    (hm : marker ≠ []) (hidx : seqIdx marker ws.flatten = some idx) :
    (runSW marker ws).found = true ∧
    (runSW marker ws).dst1 = ws.flatten.take (idx + marker.length) ∧
    (runSW marker ws).dst2 = ws.flatten.drop (idx + marker.length) := by
  have h := (runSW_inv marker hm ws).2 idx hidx
  rw [h]
  exact ⟨rfl, rfl, rfl⟩

/-- C9 witness: the start marker `"GOPHER"` split across two writes. -/
theorem C9_switchWriter_split_witness :
    (runSW (strBytes "GOPHER") [strBytes "this is before GO", strBytes "PHER and after"]).found
        = true ∧
    (runSW (strBytes "GOPHER")
        [strBytes "this is before GO", strBytes "PHER and after"]).dst1 =
      ([strBytes "this is before GO", strBytes "PHER and after"] : List (List Nat)).flatten.take
        (15 + (strBytes "GOPHER").length) ∧
    (runSW (strBytes "GOPHER")
        [strBytes "this is before GO", strBytes "PHER and after"]).dst2 =
      ([strBytes "this is before GO", strBytes "PHER and after"] : List (List Nat)).flatten.drop
        (15 + (strBytes "GOPHER").length) :=
  C9_switchWriter_split (strBytes "GOPHER")
    [strBytes "this is before GO", strBytes "PHER and after"] 15 (by decide) (by decide)

/-! ## Container.Wait and the 1-buffered waitErr channel (sandbox/sandbox.go)

`startContainer` makes `waitErr` a 1-buffered channel and spawns one
goroutine that sends the `WaitOrStop` result into it exactly once; each call
to `Container.Wait` receives from the channel and sends the received value
back. The interleaving of these channel operations is modelled as a
transition system; values are `Nat` stand-ins for the wait error. -/

/-- Progress of one `Wait` caller: before its receive, holding the received
value (before the re-send), or returned. -/
inductive WaiterPC
  | start
  | gotVal (e : Nat)
  | done (e : Nat)
deriving Repr, DecidableEq

/-- Global state: channel buffer contents, whether the filler goroutine has
sent, and each `Wait` caller's progress. -/
structure WaitSys where
  slot : Option Nat
  filled : Bool
  waiters : List WaiterPC
deriving Repr, DecidableEq

/-- Initial state: empty channel, result not yet delivered, `n` callers about
to call `Wait`. -/
def initWaitSys (n : Nat) : WaitSys := ⟨none, false, List.replicate n .start⟩

/-- One interleaved channel operation. A buffered send needs a free slot; a
receive needs a full slot; blocked operations have no transition. -/
inductive WStep (e0 : Nat) : WaitSys → WaitSys → Prop
  | fill (s : WaitSys) :
      s.filled = false → s.slot = none →
      WStep e0 s ⟨some e0, true, s.waiters⟩
  | recv (s : WaitSys) (i : Nat) (e : Nat) :
      s.waiters.get? i = some .start → s.slot = some e →
      WStep e0 s ⟨none, s.filled, s.waiters.set i (.gotVal e)⟩
  | send (s : WaitSys) (i : Nat) (e : Nat) :
      s.waiters.get? i = some (.gotVal e) → s.slot = none →
      WStep e0 s ⟨some e, s.filled, s.waiters.set i (.done e)⟩

/-- Reachability from the initial state under arbitrary interleaving. -/
def WReach (e0 n : Nat) (s : WaitSys) : Prop :=
  Relation.ReflTransGen (WStep e0) (initWaitSys n) s

theorem get?_set_self' (l : List WaiterPC) (i : Nat) (v : WaiterPC) (h : i < l.length) :
    (l.set i v).get? i = some v := by
  rw [List.get?_eq_getElem?, List.getElem?_set_self (by simpa using h)]

theorem get?_set_ne' (l : List WaiterPC) (i j : Nat) (v : WaiterPC) (h : i ≠ j) :
    (l.set i v).get? j = l.get? j := by
  rw [List.get?_eq_getElem?, List.get?_eq_getElem?, List.getElem?_set_ne h]

/-- Inductive invariant: the slot only ever holds the fill value; every value
a waiter holds or returned is the fill value; after the fill, exactly one
copy of the value is in flight (in the slot or held by one waiter). -/
def WInv (e0 : Nat) (s : WaitSys) : Prop :=
  (∀ e, s.slot = some e → e = e0 ∧ s.filled = true) ∧
  (∀ i e, (s.waiters.get? i = some (.gotVal e) ∨ s.waiters.get? i = some (.done e)) →
    e = e0 ∧ s.filled = true) ∧
  (s.filled = true →
    (s.slot = some e0 ∧ ∀ j e, s.waiters.get? j ≠ some (.gotVal e)) ∨
    (s.slot = none ∧ ∃ i, (∃ e, s.waiters.get? i = some (.gotVal e)) ∧
      ∀ j e', s.waiters.get? j = some (.gotVal e') → j = i))

theorem WInv_init (e0 n : Nat) : WInv e0 (initWaitSys n) := by
  refine ⟨?_, ?_, ?_⟩
  · intro e h
    cases h
  · intro i e h
    rcases h with h | h <;>
    · rcases hx : (initWaitSys n).waiters.get? i with - | pc
      · rw [hx] at h
        cases h
      · rw [hx] at h
        have : pc ∈ (initWaitSys n).waiters := List.get?_mem hx
        rw [List.eq_of_mem_replicate this] at h
        cases h
  · intro h
    cases h

theorem WInv_step (e0 : Nat) (s s' : WaitSys) (hstep : WStep e0 s s')
    (hinv : WInv e0 s) : WInv e0 s' := by
  obtain ⟨inv1, inv2, inv3⟩ := hinv
  cases hstep with
  | fill hf hslot =>
    refine ⟨?_, ?_, ?_⟩
    · intro e h
      injection h with h
      exact ⟨h.symm, rfl⟩
    · intro i e h
      have := (inv2 i e h).2
      rw [hf] at this
      cases this
    · intro _
      left
      refine ⟨rfl, ?_⟩
      intro j e h
      have := (inv2 j e (Or.inl h)).2
      rw [hf] at this
      cases this
  | recv i e hw hslot =>
    obtain ⟨he0, hf⟩ := inv1 e hslot
    subst he0
    have hlt : i < s.waiters.length := (List.get?_eq_some.mp hw).1
    have hnogot : ∀ j e', s.waiters.get? j ≠ some (.gotVal e') := by
      rcases inv3 hf with ⟨-, hng⟩ | ⟨hn, -⟩
      · exact hng
      · rw [hn] at hslot
        cases hslot
    refine ⟨?_, ?_, ?_⟩
    · intro e' h
      cases h
    · intro j e' h
      by_cases hij : i = j
      · subst hij
        rw [get?_set_self' _ _ _ hlt] at h
        rcases h with h | h
        · injection h with h
          injection h with h
          exact ⟨h.symm, hf⟩
        · injection h with h
          cases h
      · rw [get?_set_ne' _ _ _ _ hij] at h
        exact inv2 j e' h
    · intro _
      right
      refine ⟨rfl, i, ⟨e, get?_set_self' _ _ _ hlt⟩, ?_⟩
      intro j e' h
      by_cases hij : i = j
      · exact hij.symm
      · rw [get?_set_ne' _ _ _ _ hij] at h
        exact absurd h (hnogot j e')
  | send i e hw hslot =>
    obtain ⟨he0, hf⟩ := inv2 i e (Or.inl hw)
    subst he0
    have hlt : i < s.waiters.length := (List.get?_eq_some.mp hw).1
    have huniq : ∀ j e', s.waiters.get? j = some (.gotVal e') → j = i := by
      rcases inv3 hf with ⟨hsome, -⟩ | ⟨-, i0, ⟨e1, hg1⟩, hu⟩
      · rw [hsome] at hslot
        cases hslot
      · have hii0 : i = i0 := hu i e hw
        intro j e' h
        rw [hii0]
        exact hu j e' h
    refine ⟨?_, ?_, ?_⟩
    · intro e' h
      injection h with h
      exact ⟨h.symm, hf⟩
    · intro j e' h
      by_cases hij : i = j
      · subst hij
        rw [get?_set_self' _ _ _ hlt] at h
        rcases h with h | h
        · injection h with h
          cases h
        · injection h with h
          injection h with h
          exact ⟨h.symm, hf⟩
      · rw [get?_set_ne' _ _ _ _ hij] at h
        exact inv2 j e' h
    · intro _
      left
      refine ⟨rfl, ?_⟩
      intro j e' h
      by_cases hij : i = j
      · subst hij
        rw [get?_set_self' _ _ _ hlt] at h
        injection h with h
        cases h
      · rw [get?_set_ne' _ _ _ _ hij] at h
        exact hij ((huniq j e' h).symm)

theorem WInv_reach (e0 n : Nat) (s : WaitSys) (h : WReach e0 n s) : WInv e0 s := by
  induction h with
  | refl => exact WInv_init e0 n
  | tail hsteps hstep ih => exact WInv_step e0 _ _ hstep ih

/-- C10: under every interleaving of the filler goroutine and any number of
`Wait` callers, the 1-buffered `waitErr` channel only ever holds the single
`WaitOrStop` result; every `Wait` that received a value (and every completed
`Wait`) got that same result, and the receive/re-send discipline keeps the
value available; while some `Wait` has not returned, a channel operation is
always enabled (no deadlock); and the channel is filled at most once — no
step from a filled state unfills or refills it. -/
theorem C10_container_wait (e0 n : Nat) (s : WaitSys) (hreach : WReach e0 n s) :
    (∀ e, s.slot = some e → e = e0) ∧
    (∀ i e, (s.waiters.get? i = some (.gotVal e) ∨ s.waiters.get? i = some (.done e)) →
      e = e0) ∧
    ((∃ i pc, s.waiters.get? i = some pc ∧ ∀ e, pc ≠ .done e) → ∃ s', WStep e0 s s') ∧
    (∀ s', WStep e0 s s' → s.filled = true → s'.filled = true) := by
  obtain ⟨inv1, inv2, inv3⟩ := WInv_reach e0 n s hreach
  refine ⟨fun e h => (inv1 e h).1, fun i e h => (inv2 i e h).1, ?_, ?_⟩
  · rintro ⟨i, pc, hget, hnd⟩
    cases hf : s.filled with
    | false =>
      have hslot : s.slot = none := by
        cases hs : s.slot with
        | none => rfl
        | some e =>
          have := (inv1 e hs).2
          rw [hf] at this
          cases this
      exact ⟨_, WStep.fill s hf hslot⟩
    | true =>
      rcases inv3 hf with ⟨hsome, hng⟩ | ⟨hn, i0, ⟨e1, hg1⟩, -⟩
      · cases pc with
        | start => exact ⟨_, WStep.recv s i e0 hget hsome⟩
        | gotVal e => exact absurd hget (hng i e)
        | done e => exact absurd rfl (hnd e)
      · exact ⟨_, WStep.send s i0 e1 hg1 hn⟩
  · intro s' hstep hf
    cases hstep with
    | fill hf' hslot => rfl
    | recv i e hw hslot => exact hf
    | send i e hw hslot => exact hf

/-- C10 witness: one waiter; after the goroutine's fill, the pending `Wait`
can always make a step. -/
theorem C10_container_wait_witness :
    ∃ s', WStep 7 ⟨some 7, true, [WaiterPC.start]⟩ s' :=
  (C10_container_wait 7 1 ⟨some 7, true, [WaiterPC.start]⟩
    (Relation.ReflTransGen.single (WStep.fill (initWaitSys 1) rfl rfl))).2.2.1
    ⟨0, WaiterPC.start, rfl, fun _ h => WaiterPC.noConfusion h⟩

end Playground
